import Mathlib

/-!
Shallow embedding of the Huawei-K4203 SMS client (src/huaweisms.py).

Python values flowing through the codec and the command engine are
strings, `None`, ordered dicts and lists; `PyVal` captures that dynamic
value space.  XML element trees (`xml.etree.ElementTree.Element`) are
captured by `Element`: a tag, an optional text and a list of children.
Ordered dicts are represented as association lists in insertion order;
assignment to an existing key keeps its position (Python `dict`
semantics), assignment to a fresh key appends.
-/

set_option autoImplicit false

namespace Huawei

/-- Dynamic Python value: string, None, ordered dict or list. -/
inductive PyVal where
  | str (s : String)
  | none
  | dict (d : List (String × PyVal))
  | list (l : List PyVal)

/-- An ElementTree element: tag, optional text, children. -/
inductive Element where
  | mk (tag : String) (text : Option String) (children : List Element)

def Element.tag : Element → String
  | .mk t _ _ => t

def Element.text : Element → Option String
  | .mk _ tx _ => tx

def Element.children : Element → List Element
  | .mk _ _ cs => cs

/-- Python exceptions raised by the client (`APIError` is the bad-name
error of `make_request`; `HTTPStatus` is the bare exception raised by
`get_token` and `get_inbox`). -/
inductive PyErr where
  | apiError
  | keyError
  | typeError
  | attributeError
  | httpStatus
  deriving DecidableEq

/-- First-match lookup in an ordered mapping (Python `d[k]` / `d.get(k)`
on a dict with unique keys). -/
def alistGet {α : Type} (k : String) : List (String × α) → Option α
  | [] => Option.none
  | p :: rest => if p.1 = k then some p.2 else alistGet k rest

/-- Python `d[k] = v` on an ordered dict: replace in place when the key
exists (keeping its position), append otherwise. -/
def alistSet {α : Type} (l : List (String × α)) (k : String) (v : α) : List (String × α) :=
  if k ∈ l.map Prod.fst then l.map (fun p => if p.1 = k then (k, v) else p)
  else l ++ [(k, v)]

mutual
/-- Python `repr` for the values in `PyVal` (strings are quoted). -/
def pyRepr : PyVal → String
  | .str s => "\x27" ++ s ++ "\x27"
  | .none => "None"
  | .list xs => "[" ++ String.intercalate ", " (pyReprList xs) ++ "]"
  | .dict d => "\x7b" ++ String.intercalate ", " (pyReprPairs d) ++ "\x7d"

def pyReprList : List PyVal → List String
  | [] => []
  | v :: vs => pyRepr v :: pyReprList vs

def pyReprPairs : List (String × PyVal) → List String
  | [] => []
  | p :: ps => ("\x27" ++ p.1 ++ "\x27: " ++ pyRepr p.2) :: pyReprPairs ps
end

/-- Python `str`: identity on strings, `repr`-based for containers and None. -/
def pyStr : PyVal → String
  | .str s => s
  | v => pyRepr v

/-- Python truthiness of a `PyVal` (used by `cmd_dict.get('Referer')`). -/
def pyTruthy : PyVal → Bool
  | .none => false
  | .str s => if s = "" then false else true
  | .dict d => if d.isEmpty then false else true
  | .list l => if l.isEmpty then false else true

mutual
/-- Embeds `dict_to_xml` (huaweisms.py lines 209-221), generalized over
the value: a dict becomes an element with one child per entry in
insertion order; any other value becomes a leaf whose text is `str(value)`. -/
def encodeVal (tag : String) : PyVal → Element
  | PyVal.dict d => Element.mk tag Option.none (encodeEntries d)
  | v => Element.mk tag (some (pyStr v)) []

/-- Children of `dict_to_xml`: one element per entry of `d.items()`. -/
def encodeEntries : List (String × PyVal) → List Element
  | [] => []
  | p :: rest => encodeVal p.1 p.2 :: encodeEntries rest
end

/-- The source function `dict_to_xml(tag, d)`. -/
def dict_to_xml (tag : String) (d : List (String × PyVal)) : Element :=
  encodeVal tag (PyVal.dict d)

/-- The list-wrapping step of `internal_iter` (huaweisms.py lines 193-198):
an existing non-list entry is wrapped into a two-element list, an existing
list entry gets the new value appended. -/
def wrapAppend (old v : PyVal) : PyVal :=
  match old with
  | PyVal.list xs => PyVal.list (xs ++ [v])
  | w => PyVal.list [w, v]

/-- The accumulation loop of `internal_iter` over the decoded
`(tag, value)` pairs of the children, in document order. -/
def mergePairs : List (String × PyVal) → List (String × PyVal) → List (String × PyVal)
  | [], acc => acc
  | p :: rest, acc =>
    match alistGet p.1 acc with
    | some old => mergePairs rest (alistSet acc p.1 (wrapAppend old p.2))
    | Option.none => mergePairs rest (acc ++ [(p.1, p.2)])

mutual
/-- The value `internal_iter` stores under `tree.tag` (huaweisms.py lines
186-204): the text for a childless element, otherwise the merged dict of
the recursively decoded children. -/
def childValue : Element → PyVal
  | .mk _ tx [] =>
    match tx with
    | some s => PyVal.str s
    | Option.none => PyVal.none
  | .mk _ _ (c :: cs) => PyVal.dict (mergePairs (decodePairs (c :: cs)) [])

/-- Decoded `(tag, value)` pair of each child, in document order. -/
def decodePairs : List Element → List (String × PyVal)
  | [] => []
  | c :: cs => (c.tag, childValue c) :: decodePairs cs
end

/-- The source function `etree_to_dict(element_tree)` (huaweisms.py lines
167-206): `internal_iter(t, {})` returns `{t.tag: value}`. -/
def etree_to_dict (e : Element) : PyVal :=
  PyVal.dict [(e.tag, childValue e)]

/-- Python `v[k]` subscription: `KeyError` when the key is missing from a
dict, `TypeError` when `v` is not a dict. -/
def pyIndex (v : PyVal) (k : String) : Except PyErr PyVal :=
  match v with
  | PyVal.dict d =>
    match alistGet k d with
    | some x => Except.ok x
    | Option.none => Except.error PyErr.keyError
  | _ => Except.error PyErr.typeError

/-- Python `v.get(k)` on a value known to be a dict (absent keys give None). -/
def pyGet (v : PyVal) (k : String) : Option PyVal :=
  match v with
  | PyVal.dict d => alistGet k d
  | _ => Option.none

/-- String extraction (`'' + x` raises `TypeError` on a non-string). -/
def asStr : PyVal → Except PyErr String
  | PyVal.str s => Except.ok s
  | _ => Except.error PyErr.typeError

/-- Dict extraction (`OrderedDict(x)` fails on a non-mapping). -/
def asDict : PyVal → Except PyErr (List (String × PyVal))
  | PyVal.dict d => Except.ok d
  | _ => Except.error PyErr.typeError

/-- Python `==` between a value and a string literal (`method == 'post'`):
true exactly for the equal string, false for any non-string value. -/
def pyEqStr : PyVal → String → Bool
  | PyVal.str s, t => s = t
  | _, _ => false

/-- Header assignment `headers[k] = v` (same ordered-dict semantics). -/
def hset (l : List (String × String)) (k v : String) : List (String × String) :=
  alistSet l k v

/-- One iteration of the kwargs loop of `make_request` (huaweisms.py
lines 89-94): an override is applied only when its key is already present
in `request`; a dict value is stored as is, any other value is stored as
`str(value)`. -/
def overrideStep (req : List (String × PyVal)) (kv : String × PyVal) :
    List (String × PyVal) :=
  if kv.1 ∈ req.map Prod.fst then
    match kv.2 with
    | PyVal.dict d => alistSet req kv.1 (PyVal.dict d)
    | v => alistSet req kv.1 (PyVal.str (pyStr v))
  else req

/-- The kwargs loop of `make_request` (huaweisms.py lines 89-94). -/
def applyOverrides (request : List (String × PyVal)) (kwargs : List (String × PyVal)) :
    List (String × PyVal) :=
  kwargs.foldl overrideStep request

/-- The fixed XML declaration prepended to POST bodies. -/
def xmlDecl : String := "<?xml version=\x271.0\x27 encoding=\x27UTF-8\x27?>"

/-- The transport-ready descriptor built by `make_request`: the request
function (`requests.post` vs `requests.get`), the url, and the optional
`headers=`/`data=` keyword arguments (the body is the XML declaration
plus the serialized element tree). -/
structure APIReq where
  isPost : Bool
  url : String
  headers : Option (List (String × String))
  data : Option (String × Element)

/-- The Referer merge of `make_request` (huaweisms.py lines 84-85):
`headers['Referer'] = cmd_dict['Referer']` when `cmd_dict.get('Referer')`
is truthy. -/
def postHeaders (commonHeaders : List (String × String)) (cmdv : PyVal) :
    List (String × String) :=
  match pyGet cmdv "Referer" with
  | some rv => if pyTruthy rv then hset commonHeaders "Referer" (pyStr rv) else commonHeaders
  | Option.none => commonHeaders

/-- Embeds `HuaweiAPI.make_request` (huaweisms.py lines 62-99).  The
token provider `get_token` is modelled as an oracle `fetch` indexed by a
fetch counter `n`; the result pairs the Python outcome with the updated
counter, so the number of token fetches of an invocation is observable.
The oracle covers only `get_token`'s successful path: the `HTTPStatus`
that `get_token` itself raises when the vendor.js fetch returns a
non-200 status (huaweisms.py lines 43-47) is outside this model, so no
theorem below asserts anything about error outcomes of the token fetch.
An unknown name raises `APIError`; a method other than `'post'`/`'get'`
falls off the end of the function and returns `None`. -/
def make_request (api : List (String × PyVal)) (commonHeaders : List (String × String))
    (baseUrl : String) (fetch : Nat → String) (n : Nat) (name : String)
    (kwargs : List (String × PyVal)) : Except PyErr (Option APIReq) × Nat :=
  if name ∈ api.map Prod.fst then
    let cmdv := (alistGet name api).getD PyVal.none
    match pyIndex cmdv "url" with
    | Except.error e => (Except.error e, n)
    | Except.ok urlv =>
      match asStr urlv with
      | Except.error e => (Except.error e, n)
      | Except.ok urlPath =>
        let url := baseUrl ++ urlPath
        match pyIndex cmdv "method" with
        | Except.error e => (Except.error e, n)
        | Except.ok methodv =>
          if pyEqStr methodv "post" then
            match pyIndex cmdv "request" with
            | Except.error e => (Except.error e, n)
            | Except.ok reqv =>
              match asDict reqv with
              | Except.error e => (Except.error e, n)
              | Except.ok request0 =>
                let headers := postHeaders commonHeaders cmdv
                let request1 := alistSet request0 "token" (PyVal.str (fetch n))
                let request2 := applyOverrides request1 kwargs
                (Except.ok (some (APIReq.mk true url (some headers)
                  (some (xmlDecl, dict_to_xml "request" request2)))), n + 1)
          else if pyEqStr methodv "get" then
            (Except.ok (some (APIReq.mk false url Option.none Option.none)), n)
          else (Except.ok Option.none, n)
  else (Except.error PyErr.apiError, n)

/-- Embeds `HuaweiAPI.run_command` (huaweisms.py lines 101-109): build the
request, run it through the transport, and return the status code paired
with the decoded body.  `req.run()` on the `None` returned for an
unsupported method raises `AttributeError`. -/
def run_command (api : List (String × PyVal)) (commonHeaders : List (String × String))
    (baseUrl : String) (fetch : Nat → String) (n : Nat) (name : String)
    (kwargs : List (String × PyVal)) (transport : APIReq → Nat × Element) :
    Except PyErr (Nat × PyVal) × Nat :=
  match make_request api commonHeaders baseUrl fetch n name kwargs with
  | (Except.error e, n2) => (Except.error e, n2)
  | (Except.ok Option.none, n2) => (Except.error PyErr.attributeError, n2)
  | (Except.ok (some req), n2) =>
    let sb := transport req
    (Except.ok (sb.1, etree_to_dict sb.2), n2)

/-- The response-interpretation part of `HuaweiAPI.get_inbox`
(huaweisms.py lines 138-149), applied to the `(status, decoded)` pair
returned by `run_command`: a bare `HTTPStatus` on a non-200 status,
otherwise the `Messages`/`Message` extraction with its
single-message-to-list coercion. -/
def inbox_from_response (status : Nat) (decoded : PyVal) : Except PyErr (List PyVal) :=
  if status = 200 then
    match pyIndex decoded "response" with
    | Except.error e => Except.error e
    | Except.ok rv =>
      match rv with
      | PyVal.dict rd =>
        match (alistGet "Messages" rd).getD PyVal.none with
        | PyVal.dict md =>
          match (alistGet "Message" md).getD PyVal.none with
          | PyVal.list l => Except.ok l
          | m => Except.ok [m]
        | _ => Except.ok []
      | _ => Except.error PyErr.attributeError
  else Except.error PyErr.httpStatus

/-- Embeds `HuaweiAPI.get_inbox` (huaweisms.py lines 129-149). -/
def get_inbox (api : List (String × PyVal)) (commonHeaders : List (String × String))
    (baseUrl : String) (fetch : Nat → String) (n : Nat)
    (transport : APIReq → Nat × Element) : Except PyErr (List PyVal) × Nat :=
  match run_command api commonHeaders baseUrl fetch n "sms-list" [] transport with
  | (Except.error e, n2) => (Except.error e, n2)
  | (Except.ok sd, n2) => (inbox_from_response sd.1 sd.2, n2)

/-- Embeds the catalog construction of `HuaweiAPI.__init__` (huaweisms.py
line 32): every top-level configuration entry except the key
`'common-headers'`. -/
def api_dict (cfg : List (String × PyVal)) : List (String × PyVal) :=
  cfg.filter (fun p => p.1 ≠ "common-headers")

/-- Embeds `HuaweiAPI.list_requests` (huaweisms.py lines 51-52). -/
def list_requests (cfg : List (String × PyVal)) : List String :=
  (api_dict cfg).map Prod.fst

/-- Boolean key distinctness of an ordered mapping. -/
def nodupKeys : List String → Bool
  | [] => true
  | k :: ks => if k ∈ ks then false else nodupKeys ks

mutual
/-- StructuredValues built only from Scalars and nonempty Nodes with
distinct keys (the shapes for which the codec round-trips). -/
def goodVal : PyVal → Bool
  | PyVal.str _ => true
  | PyVal.dict d => !d.isEmpty && nodupKeys (d.map Prod.fst) && goodPairs d
  | _ => false

def goodPairs : List (String × PyVal) → Bool
  | [] => true
  | p :: rest => goodVal p.2 && goodPairs rest
end

/-- Is the value a Python list? -/
def isList : PyVal → Bool
  | PyVal.list _ => true
  | _ => false

section AlistLemmas

variable {α : Type}

theorem alistGet_eq_none {k : String} {l : List (String × α)} :
    alistGet k l = Option.none ↔ k ∉ l.map Prod.fst := by
  induction l with
  | nil => simp [alistGet]
  | cons p rest ih =>
    by_cases h : p.1 = k
    · simp [alistGet, h]
    · have e : alistGet k (p :: rest) = alistGet k rest := by simp [alistGet, h]
      rw [e, ih]
      simp only [List.map_cons, List.mem_cons, not_or]
      exact (and_iff_right fun hh => h hh.symm).symm

theorem alistGet_append {k : String} {l1 l2 : List (String × α)} :
    alistGet k (l1 ++ l2) =
      match alistGet k l1 with
      | some v => some v
      | Option.none => alistGet k l2 := by
  induction l1 with
  | nil => simp [alistGet]
  | cons p rest ih =>
    by_cases h : p.1 = k
    · simp [alistGet, h]
    · simp [alistGet, h, ih]

theorem alistGet_singleton {k k2 : String} {v : α} :
    alistGet k [(k2, v)] = if k2 = k then some v else Option.none := by
  simp [alistGet]

theorem alistGet_append_some {k : String} {v : α} {l1 l2 : List (String × α)}
    (h : alistGet k l1 = some v) : alistGet k (l1 ++ l2) = some v := by
  rw [alistGet_append, h]

theorem alistGet_some_mem {k : String} {v : α} {l : List (String × α)}
    (h : alistGet k l = some v) : k ∈ l.map Prod.fst := by
  by_contra hc
  rw [alistGet_eq_none.mpr hc] at h
  exact Option.noConfusion h

theorem alistGet_append_none {k : String} {l1 l2 : List (String × α)}
    (h : alistGet k l1 = Option.none) : alistGet k (l1 ++ l2) = alistGet k l2 := by
  rw [alistGet_append, h]

theorem alistGet_map_replace {k : String} {v : α} {l : List (String × α)} :
    alistGet k (l.map (fun p => if p.1 = k then (k, v) else p)) =
      if k ∈ l.map Prod.fst then some v else Option.none := by
  induction l with
  | nil => simp [alistGet]
  | cons p rest ih =>
    by_cases h : p.1 = k
    · simp [alistGet, h]
    · have hiff : k ∈ p.1 :: List.map Prod.fst rest ↔ k ∈ List.map Prod.fst rest := by
        simp only [List.mem_cons]
        exact or_iff_right fun hh => h hh.symm
      simp only [alistGet, List.map_cons, h, if_false, ih]
      exact (if_congr hiff rfl rfl).symm

theorem alistGet_alistSet_self {k : String} {v : α} {l : List (String × α)} :
    alistGet k (alistSet l k v) = some v := by
  unfold alistSet
  by_cases h : k ∈ l.map Prod.fst
  · simp [h, alistGet_map_replace]
  · simp [h, alistGet_append, alistGet_eq_none.mpr h, alistGet]

theorem alistGet_alistSet_ne {k k2 : String} {v : α} {l : List (String × α)}
    (hne : k2 ≠ k) : alistGet k2 (alistSet l k v) = alistGet k2 l := by
  unfold alistSet
  by_cases h : k ∈ l.map Prod.fst
  · simp only [h, if_true]
    clear h
    induction l with
    | nil => simp
    | cons p rest ih =>
      have hk2 : ¬ k = k2 := fun hh => hne hh.symm
      by_cases h3 : p.1 = k
      · simp [alistGet, h3, hk2, ih]
      · simp [alistGet, h3, ih]
  · have hk2 : ¬ k = k2 := fun hh => hne hh.symm
    simp only [h, if_false]
    rw [alistGet_append]
    cases hg : alistGet k2 l with
    | some w => rfl
    | none => simp [alistGet, hk2]

theorem alistSet_keys {k : String} {v : α} {l : List (String × α)} :
    (alistSet l k v).map Prod.fst =
      if k ∈ l.map Prod.fst then l.map Prod.fst else l.map Prod.fst ++ [k] := by
  unfold alistSet
  by_cases h : k ∈ l.map Prod.fst
  · simp only [h, if_true]
    clear h
    induction l with
    | nil => simp
    | cons p rest ih =>
      by_cases h3 : p.1 = k
      · simp [h3, ih]
      · simp [h3, ih]
  · simp [h]

theorem alistSet_not_mem {k : String} {v : α} {l : List (String × α)}
    (h : k ∉ l.map Prod.fst) : alistSet l k v = l ++ [(k, v)] := by
  simp [alistSet, h]

theorem alistSet_append_single {k k2 : String} {v w : α} {l : List (String × α)}
    (hmem : k2 ∈ l.map Prod.fst) (hne : k2 ≠ k) :
    alistSet (l ++ [(k, v)]) k2 w = alistSet l k2 w ++ [(k, v)] := by
  have hmem2 : k2 ∈ (l ++ [(k, v)]).map Prod.fst := by
    simp only [List.map_append, List.mem_append]
    exact Or.inl hmem
  unfold alistSet
  rw [if_pos hmem2, if_pos hmem, List.map_append]
  simp only [List.map, List.append_cancel_left_eq]
  rw [if_neg (show ¬((k, v).1 = k2) from fun hh => hne hh.symm)]

end AlistLemmas

section OverrideLemmas

theorem overrideStep_keys {req : List (String × PyVal)} {kv : String × PyVal} :
    (overrideStep req kv).map Prod.fst = req.map Prod.fst := by
  unfold overrideStep
  by_cases h : kv.1 ∈ req.map Prod.fst
  · cases kv.2 <;> simp [h, alistSet_keys]
  · simp [h]

theorem applyOverrides_cons {req : List (String × PyVal)} {kv : String × PyVal}
    {kw : List (String × PyVal)} :
    applyOverrides req (kv :: kw) = applyOverrides (overrideStep req kv) kw := rfl

theorem applyOverrides_keys {kw req : List (String × PyVal)} :
    (applyOverrides req kw).map Prod.fst = req.map Prod.fst := by
  induction kw generalizing req with
  | nil => rfl
  | cons kv rest ih =>
    rw [applyOverrides_cons, ih, overrideStep_keys]

theorem applyOverrides_get_absent {k : String} {req kw : List (String × PyVal)}
    (h : k ∉ req.map Prod.fst) :
    alistGet k (applyOverrides req kw) = Option.none := by
  rw [alistGet_eq_none, applyOverrides_keys]
  exact h

theorem overrideStep_get_ne {k : String} {req : List (String × PyVal)}
    {kv : String × PyVal} (hne : kv.1 ≠ k) :
    alistGet k (overrideStep req kv) = alistGet k req := by
  unfold overrideStep
  by_cases h : kv.1 ∈ req.map Prod.fst
  · have hne2 : k ≠ kv.1 := fun hh => hne hh.symm
    cases kv.2 <;> simp [h, alistGet_alistSet_ne hne2]
  · simp [h]

theorem applyOverrides_get_not_overridden {k : String} {kw req : List (String × PyVal)}
    (h : k ∉ kw.map Prod.fst) :
    alistGet k (applyOverrides req kw) = alistGet k req := by
  induction kw generalizing req with
  | nil => rfl
  | cons kv rest ih =>
    have h1 : kv.1 ≠ k := by
      intro hh
      exact h (by simp [hh])
    have h2 : k ∉ rest.map Prod.fst := fun hh => h (by simp [hh])
    rw [applyOverrides_cons, ih h2, overrideStep_get_ne h1]

theorem overrideStep_append_single {k : String} {v : PyVal}
    {req : List (String × PyVal)} {kv : String × PyVal} (hne : kv.1 ≠ k) :
    overrideStep (req ++ [(k, v)]) kv = overrideStep req kv ++ [(k, v)] := by
  unfold overrideStep
  have hmemiff : kv.1 ∈ (req ++ [(k, v)]).map Prod.fst ↔ kv.1 ∈ req.map Prod.fst := by
    simp only [List.map_append, List.mem_append, List.map, List.mem_singleton]
    exact or_iff_left (by simpa using hne)
  by_cases h : kv.1 ∈ req.map Prod.fst
  · have h2 := hmemiff.mpr h
    cases kv.2 <;> simp [h, h2, alistSet_append_single h hne]
  · have h2 : kv.1 ∉ (req ++ [(k, v)]).map Prod.fst := fun hh => h (hmemiff.mp hh)
    rw [if_neg h2, if_neg h]

theorem applyOverrides_append_single {k : String} {v : PyVal}
    {kw req : List (String × PyVal)} (h : k ∉ kw.map Prod.fst) :
    applyOverrides (req ++ [(k, v)]) kw = applyOverrides req kw ++ [(k, v)] := by
  induction kw generalizing req with
  | nil => rfl
  | cons kv rest ih =>
    have h1 : kv.1 ≠ k := by
      intro hh
      exact h (by simp [hh])
    have h2 : k ∉ rest.map Prod.fst := fun hh => h (by simp [hh])
    rw [applyOverrides_cons, overrideStep_append_single h1, ih h2, applyOverrides_cons]

theorem applyOverrides_snoc_absent {k : String} {v : PyVal}
    {kw req : List (String × PyVal)} (h : k ∉ req.map Prod.fst) :
    applyOverrides req (kw ++ [(k, v)]) = applyOverrides req kw := by
  unfold applyOverrides
  rw [List.foldl_append]
  show overrideStep (applyOverrides req kw) (k, v) = applyOverrides req kw
  unfold overrideStep
  rw [applyOverrides_keys]
  simp [h]

end OverrideLemmas

section CodecLemmas

theorem encodeVal_tag {t : String} {v : PyVal} : (encodeVal t v).tag = t := by
  cases v <;> simp [encodeVal, Element.tag]

theorem encodeEntries_cons {p : String × PyVal} {rest : List (String × PyVal)} :
    encodeEntries (p :: rest) = encodeVal p.1 p.2 :: encodeEntries rest := by
  simp [encodeEntries]

theorem encodeEntries_append {l1 l2 : List (String × PyVal)} :
    encodeEntries (l1 ++ l2) = encodeEntries l1 ++ encodeEntries l2 := by
  induction l1 with
  | nil => simp [encodeEntries]
  | cons p rest ih => simp [encodeEntries, ih]

theorem encodeEntries_map_tag {d : List (String × PyVal)} :
    (encodeEntries d).map Element.tag = d.map Prod.fst := by
  induction d with
  | nil => simp [encodeEntries]
  | cons p rest ih => simp [encodeEntries, encodeVal_tag, ih]

theorem encodeEntries_length {d : List (String × PyVal)} :
    (encodeEntries d).length = d.length := by
  induction d with
  | nil => rfl
  | cons p rest ih => simp [encodeEntries, ih]

theorem dict_to_xml_children {t : String} {d : List (String × PyVal)} :
    (dict_to_xml t d).children = encodeEntries d := rfl

theorem childValue_not_list {e : Element} : isList (childValue e) = false := by
  cases e with
  | mk t tx cs =>
    cases cs with
    | nil => cases tx <;> simp [childValue, isList]
    | cons c cs2 => simp [childValue, isList]

theorem decodePairs_cons {c : Element} {cs : List Element} :
    decodePairs (c :: cs) = (c.tag, childValue c) :: decodePairs cs := by
  simp [decodePairs]

theorem decodePairs_eq_map {cs : List Element} :
    decodePairs cs = cs.map (fun c => (c.tag, childValue c)) := by
  induction cs with
  | nil => simp [decodePairs]
  | cons c rest ih => simp [decodePairs, ih]

end CodecLemmas

/-- Reference fold describing how `internal_iter` combines the decoded
values sharing one tag: starting from the current entry (if any), each
further occurrence is merged with `wrapAppend`. -/
def mergeOpt : Option PyVal → List PyVal → Option PyVal
  | o, [] => o
  | Option.none, v :: vs => mergeOpt (some v) vs
  | some old, v :: vs => mergeOpt (some (wrapAppend old v)) vs

section MergeLemmas

theorem mergePairs_cons {p : String × PyVal} {rest acc : List (String × PyVal)} :
    mergePairs (p :: rest) acc =
      match alistGet p.1 acc with
      | some old => mergePairs rest (alistSet acc p.1 (wrapAppend old p.2))
      | Option.none => mergePairs rest (acc ++ [(p.1, p.2)]) := by
  simp [mergePairs]

theorem mergePairs_cons_some {p : String × PyVal} {rest acc : List (String × PyVal)}
    {old : PyVal} (hg : alistGet p.1 acc = some old) :
    mergePairs (p :: rest) acc = mergePairs rest (alistSet acc p.1 (wrapAppend old p.2)) := by
  rw [mergePairs_cons, hg]

theorem mergePairs_cons_none {p : String × PyVal} {rest acc : List (String × PyVal)}
    (hg : alistGet p.1 acc = Option.none) :
    mergePairs (p :: rest) acc = mergePairs rest (acc ++ [(p.1, p.2)]) := by
  rw [mergePairs_cons, hg]

theorem mergePairs_get {t : String} {ps acc : List (String × PyVal)} :
    alistGet t (mergePairs ps acc) =
      mergeOpt (alistGet t acc) ((ps.filter (fun p => p.1 = t)).map Prod.snd) := by
  induction ps generalizing acc with
  | nil => simp [mergePairs, mergeOpt]
  | cons p rest ih =>
    rw [List.filter_cons]
    by_cases ht : p.1 = t
    · rw [if_pos (by simp [ht])]
      cases hg : alistGet t acc with
      | some old =>
        have hg2 : alistGet p.1 acc = some old := by rw [ht, hg]
        rw [mergePairs_cons_some hg2, ih, ht, alistGet_alistSet_self, List.map_cons]
        rfl
      | none =>
        have hg2 : alistGet p.1 acc = Option.none := by rw [ht, hg]
        rw [mergePairs_cons_none hg2, ih, alistGet_append_none hg,
          alistGet_singleton, if_pos ht, List.map_cons]
        rfl
    · rw [if_neg (by simp [ht])]
      cases hg : alistGet p.1 acc with
      | some old =>
        rw [mergePairs_cons_some hg, ih,
          alistGet_alistSet_ne (fun hh : t = p.1 => ht hh.symm)]
      | none =>
        rw [mergePairs_cons_none hg, ih, alistGet_append]
        rw [alistGet_singleton, if_neg ht]
        cases alistGet t acc <;> rfl

theorem mergeOpt_some_list {xs : List PyVal} {vs : List PyVal} :
    mergeOpt (some (PyVal.list xs)) vs = some (PyVal.list (xs ++ vs)) := by
  induction vs generalizing xs with
  | nil => simp [mergeOpt]
  | cons v rest ih =>
    show mergeOpt (some (wrapAppend (PyVal.list xs) v)) rest = _
    rw [show wrapAppend (PyVal.list xs) v = PyVal.list (xs ++ [v]) from rfl, ih]
    simp

theorem mergeOpt_none_of_not_list {vs : List PyVal}
    (h : ∀ v ∈ vs, isList v = false) :
    mergeOpt Option.none vs =
      if vs.length ≤ 1 then vs.head? else some (PyVal.list vs) := by
  match vs with
  | [] => rfl
  | [v] => rfl
  | v1 :: v2 :: rest =>
    show mergeOpt (some (wrapAppend v1 v2)) rest = _
    have h1 : isList v1 = false := h v1 (by simp)
    have hw : wrapAppend v1 v2 = PyVal.list [v1, v2] := by
      cases v1 <;> simp_all [wrapAppend, isList]
    rw [hw, mergeOpt_some_list]
    simp [List.length]

theorem mergePairs_no_overlap {ps acc : List (String × PyVal)}
    (hdisj : ∀ p ∈ ps, alistGet p.1 acc = Option.none)
    (hnodup : nodupKeys (ps.map Prod.fst) = true) :
    mergePairs ps acc = acc ++ ps := by
  induction ps generalizing acc with
  | nil => simp [mergePairs]
  | cons p rest ih =>
    rw [mergePairs_cons, hdisj p (by simp)]
    have hpn : p.1 ∉ rest.map Prod.fst := by
      by_contra hc
      simp [nodupKeys, hc] at hnodup
    have hnodup2 : nodupKeys (rest.map Prod.fst) = true := by
      simpa [nodupKeys, hpn] using hnodup
    have hdisj2 : ∀ q ∈ rest, alistGet q.1 (acc ++ [(p.1, p.2)]) = Option.none := by
      intro q hq
      rw [alistGet_append, hdisj q (by simp [hq]), alistGet_singleton]
      rw [if_neg (fun hh : p.1 = q.1 => hpn (hh ▸ List.mem_map_of_mem Prod.fst hq))]
    rw [ih hdisj2 hnodup2]
    simp

theorem mergePairs_same_tag_acc {t : String} {xs : List PyVal}
    {ps : List (String × PyVal)} (h : ∀ p ∈ ps, p.1 = t) :
    mergePairs ps [(t, PyVal.list xs)] =
      [(t, PyVal.list (xs ++ ps.map Prod.snd))] := by
  induction ps generalizing xs with
  | nil => simp [mergePairs]
  | cons p rest ih =>
    have hp : p.1 = t := h p (by simp)
    have hsc : alistGet p.1 [(t, PyVal.list xs)] = some (PyVal.list xs) := by
      rw [alistGet_singleton, if_pos hp.symm]
    have hset : alistSet [(t, PyVal.list xs)] p.1 (wrapAppend (PyVal.list xs) p.2) =
        [(t, PyVal.list (xs ++ [p.2]))] := by
      simp [alistSet, hp, wrapAppend]
    rw [mergePairs_cons_some hsc, hset, ih (fun q hq => h q (by simp [hq]))]
    simp

theorem mergePairs_same_tag {t : String} {ps : List (String × PyVal)}
    (h : ∀ p ∈ ps, p.1 = t) (hlen : 2 ≤ ps.length)
    (hnl : ∀ p ∈ ps, isList p.2 = false) :
    mergePairs ps [] = [(t, PyVal.list (ps.map Prod.snd))] := by
  match ps with
  | p1 :: p2 :: rest =>
    have h1 : p1.1 = t := h p1 (by simp)
    have h2 : p2.1 = t := h p2 (by simp)
    rw [mergePairs_cons_none (show alistGet p1.1 [] = Option.none from rfl)]
    simp only [List.nil_append]
    have hsc : alistGet p2.1 [(p1.1, p1.2)] = some p1.2 := by
      rw [alistGet_singleton, if_pos (h1.trans h2.symm)]
    have hw : wrapAppend p1.2 p2.2 = PyVal.list [p1.2, p2.2] := by
      have hnl1 : isList p1.2 = false := hnl p1 (by simp)
      cases hv : p1.2 <;> simp_all [wrapAppend, isList]
    have hset : alistSet [(p1.1, p1.2)] p2.1 (wrapAppend p1.2 p2.2) =
        [(t, PyVal.list [p1.2, p2.2])] := by
      simp [alistSet, h1, h2, hw]
    rw [mergePairs_cons_some hsc, hset,
      mergePairs_same_tag_acc (fun q hq => h q (by simp [hq]))]
    simp

end MergeLemmas

section RoundTrip

theorem goodPairs_mem {d : List (String × PyVal)} (hg : goodPairs d = true) :
    ∀ p ∈ d, goodVal p.2 = true := by
  induction d with
  | nil => simp
  | cons p rest ih =>
    simp only [goodPairs, Bool.and_eq_true] at hg
    intro q hq
    rcases List.mem_cons.mp hq with h | h
    · rw [h]
      exact hg.1
    · exact ih hg.2 q h

theorem decodePairs_encodeEntries {d : List (String × PyVal)}
    (h : ∀ p ∈ d, childValue (encodeVal p.1 p.2) = p.2) :
    decodePairs (encodeEntries d) = d := by
  induction d with
  | nil => rfl
  | cons p rest ih =>
    rw [encodeEntries_cons, decodePairs_cons, encodeVal_tag, h p (by simp),
      ih (fun q hq => h q (by simp [hq]))]

theorem sizeOf_snd_lt_dict {d : List (String × PyVal)} {p : String × PyVal}
    (hp : p ∈ d) : sizeOf p.2 < sizeOf (PyVal.dict d) := by
  have h1 : sizeOf p < sizeOf d := List.sizeOf_lt_of_mem hp
  have h2 : sizeOf p.2 < sizeOf p := by
    obtain ⟨a, b⟩ := p
    simp only [Prod.mk.sizeOf_spec]
    omega
  have h3 : sizeOf (PyVal.dict d) = 1 + sizeOf d := by simp
  omega

theorem childValue_encodeVal_good : ∀ (n : Nat) (v : PyVal), sizeOf v ≤ n →
    goodVal v = true → ∀ t, childValue (encodeVal t v) = v := by
  intro n
  induction n using Nat.strong_induction_on with
  | _ n ih =>
    intro v hsz hg t
    match v with
    | PyVal.str s => simp [encodeVal, childValue, pyStr]
    | PyVal.none => simp [goodVal] at hg
    | PyVal.list l => simp [goodVal] at hg
    | PyVal.dict d =>
      have hsplit : (!d.isEmpty) = true ∧ nodupKeys (d.map Prod.fst) = true ∧
          goodPairs d = true := by
        simpa [goodVal, Bool.and_eq_true, and_assoc] using hg
      obtain ⟨hne, hnd, hgp⟩ := hsplit
      have hmem : ∀ p ∈ d, childValue (encodeVal p.1 p.2) = p.2 := by
        intro p hp
        have hlt : sizeOf p.2 < sizeOf (PyVal.dict d) := sizeOf_snd_lt_dict hp
        exact ih (sizeOf p.2) (lt_of_lt_of_le hlt hsz) p.2 le_rfl
          (goodPairs_mem hgp p hp) p.1
      match d, hne, hnd, hgp, hmem with
      | p :: rest, _, hnd, hgp, hmem =>
        have henc : encodeVal t (PyVal.dict (p :: rest)) =
            Element.mk t Option.none (encodeVal p.1 p.2 :: encodeEntries rest) := by
          rw [show encodeVal t (PyVal.dict (p :: rest)) =
            Element.mk t Option.none (encodeEntries (p :: rest)) from rfl,
            encodeEntries_cons]
        rw [henc]
        have hcv : childValue
            (Element.mk t Option.none (encodeVal p.1 p.2 :: encodeEntries rest)) =
            PyVal.dict (mergePairs
              (decodePairs (encodeVal p.1 p.2 :: encodeEntries rest)) []) := by
          simp [childValue]
        rw [hcv, ← encodeEntries_cons, decodePairs_encodeEntries hmem,
          @mergePairs_no_overlap (p :: rest) [] (fun q _ => rfl) hnd]
        simp

theorem etree_to_dict_dict_to_xml_good {v : PyVal} (hg : goodVal v = true)
    (tag : String) : etree_to_dict (encodeVal tag v) = PyVal.dict [(tag, v)] := by
  rw [etree_to_dict, encodeVal_tag, childValue_encodeVal_good (sizeOf v) v le_rfl hg]

end RoundTrip

theorem filtered_decodePairs_snd {cs : List Element} {t : String} :
    ((decodePairs cs).filter (fun p => p.1 = t)).map Prod.snd =
      (cs.filter (fun c => c.tag = t)).map childValue := by
  rw [decodePairs_eq_map]
  induction cs with
  | nil => rfl
  | cons c rest ih =>
    by_cases h : c.tag = t
    · simp only [List.map_cons, List.filter_cons, h]
      simp [ih]
    · simp only [List.map_cons, List.filter_cons, h]
      simp [ih, h]

/-- C1: decoding applies the tie-break rule for repeated children: a
tag-name occurring exactly once under a parent is entered as the decoded
child value directly, a tag-name occurring more than once is entered as
the ordered list of the decoded child values in document order; in
particular `<a><b>1</b></a>` decodes to `{a: {b: "1"}}` and
`<a><b>1</b><b>2</b></a>` decodes to `{a: {b: ["1","2"]}}`. -/
theorem claim_C1_decode_repeated_children :
    (∀ (cs : List Element) (t : String),
      alistGet t (mergePairs (decodePairs cs) []) =
        (if ((cs.filter (fun c => c.tag = t)).map childValue).length ≤ 1 then
          ((cs.filter (fun c => c.tag = t)).map childValue).head?
        else some (PyVal.list ((cs.filter (fun c => c.tag = t)).map childValue)))) ∧
    (∀ (a : String) (tx : Option String) (c : Element) (cs : List Element),
      childValue (Element.mk a tx (c :: cs)) =
        PyVal.dict (mergePairs (decodePairs (c :: cs)) [])) ∧
    etree_to_dict (Element.mk "a" Option.none [Element.mk "b" (some "1") []]) =
      PyVal.dict [("a", PyVal.dict [("b", PyVal.str "1")])] ∧
    etree_to_dict (Element.mk "a" Option.none
        [Element.mk "b" (some "1") [], Element.mk "b" (some "2") []]) =
      PyVal.dict [("a", PyVal.dict [("b", PyVal.list [PyVal.str "1", PyVal.str "2"])])] := by
  refine ⟨?_, fun a tx c cs => rfl, rfl, rfl⟩
  intro cs t
  have hnl : ∀ v ∈ (cs.filter (fun c => c.tag = t)).map childValue,
      isList v = false := by
    intro v hv
    obtain ⟨c, _, rfl⟩ := List.mem_map.mp hv
    exact childValue_not_list
  rw [mergePairs_get, filtered_decodePairs_snd,
    show alistGet t ([] : List (String × PyVal)) = Option.none from rfl]
  exact mergeOpt_none_of_not_list hnl

/-- C2 counterexample: the round-trip fails as stated.  Encoding the
empty Node under tag `a` yields a childless element with absent text,
which decodes to Python `None` (an absent value), not to the empty Node
and not to an empty scalar string. -/
theorem claim_C2_counterexample :
    etree_to_dict (dict_to_xml "a" []) = PyVal.dict [("a", PyVal.none)] ∧
    PyVal.dict [("a", PyVal.none)] ≠ PyVal.dict [("a", PyVal.dict [])] ∧
    childValue (Element.mk "b" Option.none []) = PyVal.none ∧
    PyVal.none ≠ PyVal.str "" := by
  refine ⟨rfl, by simp, rfl, by simp⟩

/-- C2 (amended): for StructuredValues built only from Scalars and
nonempty Nodes with distinct keys, decode is a left inverse of encode up
to the root-tag wrapper: `etree_to_dict (Encode tag v) = {tag: v}`; a
leaf whose text is present (even empty) decodes to that scalar string. -/
theorem claim_C2_roundtrip :
    (∀ (v : PyVal), goodVal v = true → ∀ tag : String,
      etree_to_dict (encodeVal tag v) = PyVal.dict [(tag, v)]) ∧
    (∀ (d : List (String × PyVal)), goodVal (PyVal.dict d) = true → ∀ tag : String,
      etree_to_dict (dict_to_xml tag d) = PyVal.dict [(tag, PyVal.dict d)]) ∧
    (∀ (tag : String) (s : String),
      childValue (Element.mk tag (some s) []) = PyVal.str s) := by
  refine ⟨fun v hg tag => etree_to_dict_dict_to_xml_good hg tag,
    fun d hg tag => etree_to_dict_dict_to_xml_good hg tag,
    fun tag s => rfl⟩

/-- C2 witness: a concrete scalar-and-node value round-trips. -/
theorem claim_C2_roundtrip_witness :
    goodVal (PyVal.dict [("b", PyVal.str "1"), ("c", PyVal.str "")]) = true ∧
    etree_to_dict (dict_to_xml "a" [("b", PyVal.str "1"), ("c", PyVal.str "")]) =
      PyVal.dict [("a", PyVal.dict [("b", PyVal.str "1"), ("c", PyVal.str "")])] :=
  ⟨rfl, claim_C2_roundtrip.2.1 [("b", PyVal.str "1"), ("c", PyVal.str "")] rfl "a"⟩

/-- C3: field insertion order is preserved: applying overrides never
changes the key sequence of the mapping, and encoding emits one child
per entry in exactly that key order, so overriding an existing key does
not move its position in the encoded output. -/
theorem claim_C3_field_order_preserved :
    (∀ (req kw : List (String × PyVal)),
      (applyOverrides req kw).map Prod.fst = req.map Prod.fst) ∧
    (∀ (tag : String) (d : List (String × PyVal)),
      (dict_to_xml tag d).children.map Element.tag = d.map Prod.fst) ∧
    (∀ (tag : String) (req kw : List (String × PyVal)),
      (dict_to_xml tag (applyOverrides req kw)).children.map Element.tag =
        req.map Prod.fst) := by
  refine ⟨fun req kw => applyOverrides_keys, fun tag d => ?_, fun tag req kw => ?_⟩
  · rw [dict_to_xml_children, encodeEntries_map_tag]
  · rw [dict_to_xml_children, encodeEntries_map_tag, applyOverrides_keys]

/-- C4 counterexample: an override key absent from the command's default
fields is not always ignored: `token` is added to the request mapping
before the override loop runs, so an override named `token` (absent from
the defaults) is applied and changes the built request. -/
theorem claim_C4_counterexample :
    ("token" ∉ ([("A", PyVal.str "a")].map (Prod.fst : String × PyVal → String))) ∧
    (make_request [("cmd", PyVal.dict [("url", PyVal.str "/c"),
        ("method", PyVal.str "post"),
        ("request", PyVal.dict [("A", PyVal.str "a")])])]
      [] "" (fun _ => "TT") 0 "cmd" [("token", PyVal.str "INJ")]).1 =
      Except.ok (some (APIReq.mk true "/c" (some [])
        (some (xmlDecl, Element.mk "request" Option.none
          [Element.mk "A" (some "a") [], Element.mk "token" (some "INJ") []])))) ∧
    (make_request [("cmd", PyVal.dict [("url", PyVal.str "/c"),
        ("method", PyVal.str "post"),
        ("request", PyVal.dict [("A", PyVal.str "a")])])]
      [] "" (fun _ => "TT") 0 "cmd" []).1 =
      Except.ok (some (APIReq.mk true "/c" (some [])
        (some (xmlDecl, Element.mk "request" Option.none
          [Element.mk "A" (some "a") [], Element.mk "token" (some "TT") []])))) ∧
    Element.mk "token" (some "INJ") [] ≠ Element.mk "token" (some "TT") [] := by
  refine ⟨by simp, rfl, rfl, by simp⟩

/-- C4 (amended): the override loop applies an override only to keys
already present in the request mapping it runs on (the default fields
plus, for POST, the `token` field appended beforehand); an override key
absent from that mapping is silently ignored and never injected. -/
theorem claim_C4_override_scoping :
    (∀ (req kw : List (String × PyVal)) (k : String), k ∉ req.map Prod.fst →
      alistGet k (applyOverrides req kw) = Option.none) ∧
    (∀ (req kw : List (String × PyVal)) (k : String) (v : PyVal),
      k ∉ req.map Prod.fst →
      applyOverrides req (kw ++ [(k, v)]) = applyOverrides req kw) := by
  exact ⟨fun req kw k h => applyOverrides_get_absent h,
    fun req kw k v h => applyOverrides_snoc_absent h⟩

/-- C4 witness: a concrete ignored override key. -/
theorem claim_C4_override_scoping_witness :
    ("Z" ∉ ([("A", PyVal.str "a")].map (Prod.fst : String × PyVal → String))) ∧
    alistGet "Z" (applyOverrides [("A", PyVal.str "a")] [("Z", PyVal.str "z")]) =
      Option.none ∧
    applyOverrides [("A", PyVal.str "a")] ([] ++ [("Z", PyVal.str "z")]) =
      applyOverrides [("A", PyVal.str "a")] [] :=
  ⟨by simp,
    claim_C4_override_scoping.1 [("A", PyVal.str "a")] [("Z", PyVal.str "z")] "Z" (by simp),
    claim_C4_override_scoping.2 [("A", PyVal.str "a")] [] "Z" (PyVal.str "z") (by simp)⟩

theorem pyEqStr_false_of_ne {m : PyVal} {t : String} (h : m ≠ PyVal.str t) :
    pyEqStr m t = false := by
  cases m with
  | str s =>
    simp only [pyEqStr, decide_eq_false_iff_not]
    intro hh
    exact h (by rw [hh])
  | none => rfl
  | dict d => rfl
  | list l => rfl

theorem make_request_post_eq {api : List (String × PyVal)}
    {cH : List (String × String)} {base : String} {fetch : Nat → String} {n : Nat}
    {name : String} {kwargs cmd d : List (String × PyVal)} {u : String}
    (hcmd : alistGet name api = some (PyVal.dict cmd))
    (hurl : alistGet "url" cmd = some (PyVal.str u))
    (hmethod : alistGet "method" cmd = some (PyVal.str "post"))
    (hreq : alistGet "request" cmd = some (PyVal.dict d))
    (htok : "token" ∉ d.map Prod.fst) :
    make_request api cH base fetch n name kwargs =
      (Except.ok (some (APIReq.mk true (base ++ u)
        (some (postHeaders cH (PyVal.dict cmd)))
        (some (xmlDecl, dict_to_xml "request"
          (applyOverrides (d ++ [("token", PyVal.str (fetch n))]) kwargs))))),
       n + 1) := by
  have hmem : name ∈ api.map Prod.fst := alistGet_some_mem hcmd
  unfold make_request
  simp only [hmem, if_true, hcmd, Option.getD_some, pyIndex, hurl, asStr,
    hmethod, hreq, asDict, alistSet_not_mem htok]
  rfl

/-- C5 (amended): every POST build performs exactly one token fetch (the
counter advances from `n` to `n + 1` and the token used is the one the
provider yields at index `n`, so successive invocations use successive
fresh tokens); the token is appended as the final field named `token`
before the override loop runs; when the caller supplies no override
named `token`, the fetched token appears as the last child element of
the encoded request body. -/
theorem claim_C5_token_fetch :
    ∀ (api : List (String × PyVal)) (cH : List (String × String)) (base : String)
      (fetch : Nat → String) (n : Nat) (name : String)
      (kwargs cmd d : List (String × PyVal)) (u : String),
      alistGet name api = some (PyVal.dict cmd) →
      alistGet "url" cmd = some (PyVal.str u) →
      alistGet "method" cmd = some (PyVal.str "post") →
      alistGet "request" cmd = some (PyVal.dict d) →
      "token" ∉ d.map Prod.fst →
      (make_request api cH base fetch n name kwargs).2 = n + 1 ∧
      (make_request api cH base fetch n name kwargs).1 =
        Except.ok (some (APIReq.mk true (base ++ u)
          (some (postHeaders cH (PyVal.dict cmd)))
          (some (xmlDecl, dict_to_xml "request"
            (applyOverrides (d ++ [("token", PyVal.str (fetch n))]) kwargs))))) ∧
      ("token" ∉ kwargs.map Prod.fst →
        (dict_to_xml "request"
            (applyOverrides (d ++ [("token", PyVal.str (fetch n))]) kwargs)).children =
          (dict_to_xml "request" (applyOverrides d kwargs)).children ++
            [Element.mk "token" (some (fetch n)) []] ∧
        (dict_to_xml "request"
            (applyOverrides (d ++ [("token", PyVal.str (fetch n))]) kwargs)).children.getLast? =
          some (Element.mk "token" (some (fetch n)) [])) := by
  intro api cH base fetch n name kwargs cmd d u hcmd hurl hmethod hreq htok
  have heq := @make_request_post_eq api cH base fetch n name kwargs cmd d u
    hcmd hurl hmethod hreq htok
  refine ⟨by rw [heq], by rw [heq], fun hktok => ?_⟩
  have happ : applyOverrides (d ++ [("token", PyVal.str (fetch n))]) kwargs =
      applyOverrides d kwargs ++ [("token", PyVal.str (fetch n))] :=
    applyOverrides_append_single hktok
  constructor
  · rw [dict_to_xml_children, dict_to_xml_children, happ, encodeEntries_append]
    rfl
  · rw [dict_to_xml_children, happ, encodeEntries_append]
    exact List.getLast?_concat _

/-- C5 witness: a concrete POST build fetches exactly one token and
appends it as the last child. -/
theorem claim_C5_token_fetch_witness :
    (make_request [("sms", PyVal.dict [("url", PyVal.str "/sms"),
        ("method", PyVal.str "post"),
        ("request", PyVal.dict [("Content", PyVal.str "d")])])]
      [] "http://h" (fun k => toString k) 0 "sms" [("Content", PyVal.str "hi")]).2 = 0 + 1 ∧
    (dict_to_xml "request"
        (applyOverrides ([("Content", PyVal.str "d")] ++ [("token", PyVal.str (toString 0))])
          [("Content", PyVal.str "hi")])).children.getLast? =
      some (Element.mk "token" (some (toString 0)) []) := by
  have h := claim_C5_token_fetch
    [("sms", PyVal.dict [("url", PyVal.str "/sms"), ("method", PyVal.str "post"),
      ("request", PyVal.dict [("Content", PyVal.str "d")])])]
    [] "http://h" (fun k => toString k) 0 "sms" [("Content", PyVal.str "hi")]
    [("url", PyVal.str "/sms"), ("method", PyVal.str "post"),
      ("request", PyVal.dict [("Content", PyVal.str "d")])]
    [("Content", PyVal.str "d")] "/sms" rfl rfl rfl rfl (by simp)
  exact ⟨h.1, (h.2.2 (by simp)).2⟩

/-- C5 counterexample: the token is not inserted after overrides are
applied: it is added before the override loop, so a caller-supplied
override named `token` replaces the fetched token ("T" at every index)
in the encoded body, whose last child carries the override value "X"
instead. -/
theorem claim_C5_counterexample :
    (make_request [("sms", PyVal.dict [("url", PyVal.str "/sms"),
        ("method", PyVal.str "post"),
        ("request", PyVal.dict [("Content", PyVal.str "hi")])])]
      [] "http://h" (fun _ => "T") 0 "sms" [("token", PyVal.str "X")]).1 =
      Except.ok (some (APIReq.mk true "http://h/sms" (some [])
        (some (xmlDecl, Element.mk "request" Option.none
          [Element.mk "Content" (some "hi") [],
            Element.mk "token" (some "X") []])))) ∧
    ("X" : String) ≠ "T" := by
  exact ⟨rfl, by simp⟩

theorem encodeVal_mem_encodeEntries {d : List (String × PyVal)} {p : String × PyVal}
    (hp : p ∈ d) : encodeVal p.1 p.2 ∈ encodeEntries d := by
  induction d with
  | nil => exact absurd hp (List.not_mem_nil p)
  | cons q rest ih =>
    rw [encodeEntries_cons]
    rcases List.mem_cons.mp hp with h | h
    · rw [h]
      exact List.mem_cons_self _ _
    · exact List.mem_cons_of_mem _ (ih h)

/-- C6 counterexample: a sequence value is not expanded into sibling
elements: encoding `{Phone: ["1", "2"]}` emits a single `Phone` leaf
whose text is the Python string form of the list, not one sibling
element per item. -/
theorem claim_C6_counterexample :
    dict_to_xml "request" [("Phone", PyVal.list [PyVal.str "1", PyVal.str "2"])] =
      Element.mk "request" Option.none
        [Element.mk "Phone" (some "[\x271\x27, \x272\x27]") []] ∧
    (dict_to_xml "request"
      [("Phone", PyVal.list [PyVal.str "1", PyVal.str "2"])]).children.length = 1 := by
  exact ⟨rfl, rfl⟩

/-- C6 (amended): the encoder emits exactly one child element per
mapping entry regardless of the entry's value; an entry whose value is a
list becomes a single leaf element whose text is `str` of the whole
list (repeated sibling tags are unsupported, as the source's TODO
comment notes). -/
theorem claim_C6_list_value_single_leaf :
    (∀ (tag : String) (d : List (String × PyVal)),
      (dict_to_xml tag d).children.length = d.length) ∧
    (∀ (tag : String) (d : List (String × PyVal)) (k : String) (xs : List PyVal),
      (k, PyVal.list xs) ∈ d →
      Element.mk k (some (pyStr (PyVal.list xs))) [] ∈ (dict_to_xml tag d).children) := by
  constructor
  · intro tag d
    rw [dict_to_xml_children, encodeEntries_length]
  · intro tag d k xs hmem
    rw [dict_to_xml_children]
    exact encodeVal_mem_encodeEntries hmem

/-- C6 witness: a concrete list entry encodes to a single stringified leaf. -/
theorem claim_C6_list_value_single_leaf_witness :
    ((dict_to_xml "request"
      [("Phones", PyVal.list [PyVal.str "1", PyVal.str "2"])]).children.length = 1) ∧
    Element.mk "Phones" (some (pyStr (PyVal.list [PyVal.str "1", PyVal.str "2"]))) [] ∈
      (dict_to_xml "request"
        [("Phones", PyVal.list [PyVal.str "1", PyVal.str "2"])]).children :=
  ⟨claim_C6_list_value_single_leaf.1 "request"
      [("Phones", PyVal.list [PyVal.str "1", PyVal.str "2"])],
    claim_C6_list_value_single_leaf.2 "request"
      [("Phones", PyVal.list [PyVal.str "1", PyVal.str "2"])] "Phones"
      [PyVal.str "1", PyVal.str "2"] (by simp)⟩

/-- C7 counterexample: a catalog entry whose method is `put` does not
fail: `make_request` falls off the end of the method dispatch and
returns Python `None` (no request descriptor, no exception), and
performs no token fetch. -/
theorem claim_C7_counterexample :
    (make_request [("x", PyVal.dict [("url", PyVal.str "/u"),
        ("method", PyVal.str "put")])] [] "" (fun _ => "") 0 "x" []) =
      (Except.ok Option.none, 0) := by
  rfl

/-- C7 (amended): for a catalog entry declaring a method other than
`post` or `get`, `make_request` returns `None` (no descriptor) without
raising any error, leaving the token-fetch counter unchanged. -/
theorem claim_C7_unsupported_method :
    ∀ (api : List (String × PyVal)) (cH : List (String × String)) (base : String)
      (fetch : Nat → String) (n : Nat) (name : String)
      (kwargs cmd : List (String × PyVal)) (u : String) (m : PyVal),
      alistGet name api = some (PyVal.dict cmd) →
      alistGet "url" cmd = some (PyVal.str u) →
      alistGet "method" cmd = some m →
      m ≠ PyVal.str "post" →
      m ≠ PyVal.str "get" →
      make_request api cH base fetch n name kwargs = (Except.ok Option.none, n) := by
  intro api cH base fetch n name kwargs cmd u m hcmd hurl hmethod hpost hget
  have hmem : name ∈ api.map Prod.fst := alistGet_some_mem hcmd
  unfold make_request
  simp only [hmem, if_true, hcmd, Option.getD_some, pyIndex, hurl, asStr, hmethod,
    pyEqStr_false_of_ne hpost, pyEqStr_false_of_ne hget, if_false,
    Bool.false_eq_true]

theorem pyIndex_error_e (v : PyVal) (k : String) (e : PyErr)
    (h : pyIndex v k = Except.error e) :
    e = PyErr.keyError ∨ e = PyErr.typeError := by
  cases v with
  | dict d =>
    simp only [pyIndex] at h
    cases hg : alistGet k d with
    | some x =>
      rw [hg] at h
      exact Except.noConfusion h
    | none =>
      rw [hg] at h
      exact Or.inl (Except.error.inj h).symm
  | str s => exact Or.inr (Except.error.inj h).symm
  | none => exact Or.inr (Except.error.inj h).symm
  | list l => exact Or.inr (Except.error.inj h).symm

theorem asStr_error_e (v : PyVal) (e : PyErr) (h : asStr v = Except.error e) :
    e = PyErr.typeError := by
  unfold asStr at h
  cases v with
  | str s => exact Except.noConfusion h
  | none => exact (Except.error.inj h).symm
  | dict d => exact (Except.error.inj h).symm
  | list l => exact (Except.error.inj h).symm

theorem asDict_error_e (v : PyVal) (e : PyErr) (h : asDict v = Except.error e) :
    e = PyErr.typeError := by
  unfold asDict at h
  cases v with
  | dict d => exact Except.noConfusion h
  | none => exact (Except.error.inj h).symm
  | str s => exact (Except.error.inj h).symm
  | list l => exact (Except.error.inj h).symm

/-- C7 witness: a concrete non-GET/POST method yields `None`. -/
theorem claim_C7_unsupported_method_witness :
    make_request [("x", PyVal.dict [("url", PyVal.str "/u"),
        ("method", PyVal.str "delete")])] [] "" (fun _ => "") 3 "x" [] =
      (Except.ok Option.none, 3) :=
  claim_C7_unsupported_method
    [("x", PyVal.dict [("url", PyVal.str "/u"), ("method", PyVal.str "delete")])]
    [] "" (fun _ => "") 3 "x" []
    [("url", PyVal.str "/u"), ("method", PyVal.str "delete")] "/u"
    (PyVal.str "delete") rfl rfl rfl (by simp) (by simp)

/-- C8 counterexample: on a non-success status the error carries neither
the status nor the decoded body: two different decoded bodies produce
the identical bare `HTTPStatus` failure, and a concrete `run_command`
does not fail on a 404 response — it returns the status-body pair. -/
theorem claim_C8_counterexample :
    inbox_from_response 404 (PyVal.dict [("response", PyVal.str "errA")]) =
      Except.error PyErr.httpStatus ∧
    inbox_from_response 404 (PyVal.dict [("response", PyVal.str "errB")]) =
      Except.error PyErr.httpStatus ∧
    PyVal.dict [("response", PyVal.str "errA")] ≠
      PyVal.dict [("response", PyVal.str "errB")] ∧
    (run_command [("sms-list", PyVal.dict [("url", PyVal.str "/l"),
        ("method", PyVal.str "get")])] [] "" (fun _ => "") 0 "sms-list" []
      (fun _ => (404, Element.mk "r" (some "oops") []))).1 =
      Except.ok (404, PyVal.dict [("r", PyVal.str "oops")]) := by
  exact ⟨rfl, rfl, by simp, rfl⟩

/-- C8 (amended): the response interpretation of `get_inbox` fails on a
non-success status with the bare `HTTPStatus` exception, which carries
neither the status nor the decoded body — the outcome is identical for
any two decoded bodies, so the body is discarded on error; and whenever
`make_request` builds a request descriptor, `run_command` does not check
the transport status itself: it returns the status paired with the
decoded body to its caller.  (A distinct `HTTPStatus` can also arise
from `get_token`'s own vendor.js fetch during request building; that
token-provider error path is outside this claim and this model.) -/
theorem claim_C8_status_error :
    (∀ (status : Nat) (decoded : PyVal), status ≠ 200 →
      inbox_from_response status decoded = Except.error PyErr.httpStatus) ∧
    (∀ (status : Nat) (d1 d2 : PyVal), status ≠ 200 →
      inbox_from_response status d1 = inbox_from_response status d2) ∧
    (∀ (api : List (String × PyVal)) (cH : List (String × String)) (base : String)
      (fetch : Nat → String) (n : Nat) (name : String)
      (kwargs : List (String × PyVal)) (transport : APIReq → Nat × Element)
      (req : APIReq),
      (make_request api cH base fetch n name kwargs).1 = Except.ok (some req) →
      (run_command api cH base fetch n name kwargs transport).1 =
        Except.ok ((transport req).1, etree_to_dict (transport req).2)) := by
  have h1 : ∀ (status : Nat) (decoded : PyVal), status ≠ 200 →
      inbox_from_response status decoded = Except.error PyErr.httpStatus := by
    intro status decoded h
    unfold inbox_from_response
    rw [if_neg h]
  refine ⟨h1, fun status d1 d2 h => by rw [h1 status d1 h, h1 status d2 h], ?_⟩
  intro api cH base fetch n name kwargs transport req h
  unfold run_command
  cases hm : make_request api cH base fetch n name kwargs with
  | mk r n2 =>
    rw [hm] at h
    have h2 : r = Except.ok (some req) := h
    subst h2
    rfl

/-- C8 witness: a concrete non-success status produces the bare error
for two different bodies, and a concretely built GET request's
`run_command` surfaces the 404 status together with the decoded body. -/
theorem claim_C8_status_error_witness :
    inbox_from_response 500 (PyVal.str "body") = Except.error PyErr.httpStatus ∧
    inbox_from_response 500 (PyVal.str "b1") = inbox_from_response 500 (PyVal.str "b2") ∧
    (run_command [("sms-list", PyVal.dict [("url", PyVal.str "/l"),
        ("method", PyVal.str "get")])] [] "" (fun _ => "") 0 "sms-list" []
      (fun _ => (404, Element.mk "r" (some "oops") []))).1 =
      Except.ok (404, PyVal.dict [("r", PyVal.str "oops")]) := by
  refine ⟨claim_C8_status_error.1 500 (PyVal.str "body") (by simp),
    claim_C8_status_error.2.1 500 (PyVal.str "b1") (PyVal.str "b2") (by simp), ?_⟩
  rw [claim_C8_status_error.2.2 [("sms-list", PyVal.dict [("url", PyVal.str "/l"),
      ("method", PyVal.str "get")])] [] "" (fun _ => "") 0 "sms-list" []
    (fun _ => (404, Element.mk "r" (some "oops") []))
    (APIReq.mk false "/l" Option.none Option.none) rfl]
  rfl

theorem inbox_from_response_decoded (rd : List (String × PyVal)) :
    inbox_from_response 200 (PyVal.dict [("response", PyVal.dict rd)]) =
      (match (alistGet "Messages" rd).getD PyVal.none with
        | PyVal.dict md =>
          match (alistGet "Message" md).getD PyVal.none with
          | PyVal.list l => Except.ok l
          | m => Except.ok [m]
        | _ => Except.ok []) := by
  unfold inbox_from_response
  rw [if_pos rfl]
  simp [pyIndex, alistGet]

theorem decodePairs_tags {ms : List Element} {t : String}
    (htags : ∀ m ∈ ms, m.tag = t) : ∀ p ∈ decodePairs ms, p.1 = t := by
  intro p hp
  rw [decodePairs_eq_map] at hp
  obtain ⟨c, hc, rfl⟩ := List.mem_map.mp hp
  exact htags c hc

theorem decodePairs_not_list {ms : List Element} :
    ∀ p ∈ decodePairs ms, isList p.2 = false := by
  intro p hp
  rw [decodePairs_eq_map] at hp
  obtain ⟨c, hc, rfl⟩ := List.mem_map.mp hp
  exact childValue_not_list

/-- C9: for a successful (status 200) `sms-list` response, the inbox
extraction returns a sequence: an empty one when the `Messages` field is
absent or, being a leaf, does not decode to a Node; the one-element list
`[m]` when `Messages` holds exactly one `Message` child (the scalar-form
single message is coerced); and all messages in document order when it
holds two or more `Message` children. -/
theorem claim_C9_list_inbox :
    (∀ (tx : Option String) (c : Element) (cs : List Element),
      "Messages" ∉ (c :: cs).map Element.tag →
      inbox_from_response 200 (etree_to_dict (Element.mk "response" tx (c :: cs))) =
        Except.ok []) ∧
    (∀ (tx tx2 : Option String),
      inbox_from_response 200 (etree_to_dict (Element.mk "response" tx
        [Element.mk "Messages" tx2 []])) = Except.ok []) ∧
    (∀ (tx tx2 : Option String) (m : Element), m.tag = "Message" →
      inbox_from_response 200 (etree_to_dict (Element.mk "response" tx
        [Element.mk "Messages" tx2 [m]])) = Except.ok [childValue m]) ∧
    (∀ (tx tx2 : Option String) (ms : List Element), 2 ≤ ms.length →
      (∀ m ∈ ms, m.tag = "Message") →
      inbox_from_response 200 (etree_to_dict (Element.mk "response" tx
        [Element.mk "Messages" tx2 ms])) = Except.ok (ms.map childValue)) := by
  refine ⟨?_, ?_, ?_, ?_⟩
  · intro tx c cs htags
    rw [show etree_to_dict (Element.mk "response" tx (c :: cs)) =
      PyVal.dict [("response", PyVal.dict (mergePairs (decodePairs (c :: cs)) []))]
      from rfl]
    rw [inbox_from_response_decoded]
    have hfil : (decodePairs (c :: cs)).filter (fun p => p.1 = "Messages") = [] := by
      rw [List.filter_eq_nil_iff]
      intro p hp
      rw [decodePairs_eq_map] at hp
      obtain ⟨cc, hcc, rfl⟩ := List.mem_map.mp hp
      simp only [decide_eq_true_eq]
      intro he
      exact htags (he ▸ List.mem_map_of_mem Element.tag hcc)
    have hget : alistGet "Messages" (mergePairs (decodePairs (c :: cs)) []) =
        Option.none := by
      rw [mergePairs_get, hfil]
      rfl
    rw [hget]
    rfl
  · intro tx tx2
    cases tx2 <;> rfl
  · intro tx tx2 m htag
    rw [show etree_to_dict (Element.mk "response" tx
        [Element.mk "Messages" tx2 [m]]) =
      PyVal.dict [("response", PyVal.dict
        [("Messages", PyVal.dict [(m.tag, childValue m)])])] from rfl]
    rw [inbox_from_response_decoded, htag]
    cases hcv : childValue m with
    | list l =>
      have hnl := @childValue_not_list m
      rw [hcv] at hnl
      exact absurd hnl (by simp [isList])
    | str s => rfl
    | none => rfl
    | dict d2 => rfl
  · intro tx tx2 ms hlen htags
    cases ms with
    | nil => simp at hlen
    | cons m1 rest =>
      have hms : mergePairs (decodePairs (m1 :: rest)) [] =
          [("Message", PyVal.list ((m1 :: rest).map childValue))] := by
        rw [mergePairs_same_tag (decodePairs_tags htags)
          (by rw [decodePairs_eq_map, List.length_map]; exact hlen)
          decodePairs_not_list]
        rw [decodePairs_eq_map, List.map_map]
        rfl
      rw [show etree_to_dict (Element.mk "response" tx
          [Element.mk "Messages" tx2 (m1 :: rest)]) =
        PyVal.dict [("response", PyVal.dict
          [("Messages", PyVal.dict (mergePairs (decodePairs (m1 :: rest)) []))])]
        from rfl]
      rw [hms, inbox_from_response_decoded]
      rfl

/-- C9 witness: a response with one `Message` child yields the coerced
one-element sequence, one with two yields both in order. -/
theorem claim_C9_list_inbox_witness :
    inbox_from_response 200 (etree_to_dict (Element.mk "response" Option.none
      [Element.mk "Messages" Option.none [Element.mk "Message" (some "hi") []]])) =
      Except.ok [PyVal.str "hi"] ∧
    inbox_from_response 200 (etree_to_dict (Element.mk "response" Option.none
      [Element.mk "Messages" Option.none
        [Element.mk "Message" (some "a") [], Element.mk "Message" (some "b") []]])) =
      Except.ok [PyVal.str "a", PyVal.str "b"] := by
  constructor
  · rw [claim_C9_list_inbox.2.2.1 Option.none Option.none
      (Element.mk "Message" (some "hi") []) rfl]
    rfl
  · rw [claim_C9_list_inbox.2.2.2 Option.none Option.none
      [Element.mk "Message" (some "a") [], Element.mk "Message" (some "b") []]
      (by simp) (by simp [Element.tag])]
    rfl

theorem make_request_fst_ne_apiError_of_mem (api : List (String × PyVal))
    (cH : List (String × String)) (base : String) (fetch : Nat → String) (n : Nat)
    (name : String) (kwargs : List (String × PyVal))
    (hmem : name ∈ api.map Prod.fst) :
    (make_request api cH base fetch n name kwargs).1 ≠
      Except.error PyErr.apiError := by
  unfold make_request
  rw [if_pos hmem]
  cases hu : pyIndex ((alistGet name api).getD PyVal.none) "url" with
  | error e =>
    simp only [hu]
    rcases pyIndex_error_e _ _ _ hu with h | h <;> simp [h]
  | ok urlv =>
    simp only [hu]
    cases hs : asStr urlv with
    | error e =>
      simp only [hs]
      simp [asStr_error_e _ _ hs]
    | ok u =>
      simp only [hs]
      cases hm : pyIndex ((alistGet name api).getD PyVal.none) "method" with
      | error e =>
        simp only [hm]
        rcases pyIndex_error_e _ _ _ hm with h | h <;> simp [h]
      | ok mv =>
        simp only [hm]
        by_cases hp : pyEqStr mv "post"
        · rw [if_pos hp]
          cases hr : pyIndex ((alistGet name api).getD PyVal.none) "request" with
          | error e =>
            simp only [hr]
            rcases pyIndex_error_e _ _ _ hr with h | h <;> simp [h]
          | ok reqv =>
            simp only [hr]
            cases hd : asDict reqv with
            | error e =>
              simp only [hd]
              simp [asDict_error_e _ _ hd]
            | ok request0 =>
              simp only [hd]
              simp
        · rw [if_neg hp]
          by_cases hg : pyEqStr mv "get"
          · rw [if_pos hg]
            simp
          · rw [if_neg hg]
            simp

/-- C10: the in-memory catalog keeps every top-level configuration key
except `'common-headers'`; since the shared section is keyed `'common'`,
that key survives the filter, so `list_requests` always lists `common`
and `make_request` invoked with the name `common` never fails with the
unknown-command error `APIError`. -/
theorem claim_C10_common_in_catalog :
    ∀ (cfg : List (String × PyVal)),
      "common" ∈ cfg.map Prod.fst →
      ((api_dict cfg).map Prod.fst =
        (cfg.map Prod.fst).filter (fun k => k ≠ "common-headers")) ∧
      "common" ∈ list_requests cfg ∧
      (∀ (cH : List (String × String)) (base : String) (fetch : Nat → String)
        (n : Nat) (kwargs : List (String × PyVal)),
        (make_request (api_dict cfg) cH base fetch n "common" kwargs).1 ≠
          Except.error PyErr.apiError) := by
  intro cfg hmem
  have hkeys : (api_dict cfg).map Prod.fst =
      (cfg.map Prod.fst).filter (fun k => k ≠ "common-headers") := by
    clear hmem
    unfold api_dict
    induction cfg with
    | nil => rfl
    | cons p rest ih =>
      simp only [ne_eq, decide_not] at ih
      by_cases h : p.1 = "common-headers"
      · simp [List.filter_cons, h, ih]
      · simp [List.filter_cons, h, ih]
  have hcm : "common" ∈ list_requests cfg := by
    unfold list_requests
    rw [hkeys, List.mem_filter]
    exact ⟨hmem, by simp⟩
  refine ⟨hkeys, hcm, fun cH base fetch n kwargs => ?_⟩
  exact make_request_fst_ne_apiError_of_mem (api_dict cfg) cH base fetch n
    "common" kwargs hcm

/-- C10 witness: a concrete configuration whose `common` section becomes
a catalog entry. -/
theorem claim_C10_common_in_catalog_witness :
    "common" ∈ list_requests [("common", PyVal.dict []),
      ("sms", PyVal.dict [("url", PyVal.str "/s"), ("method", PyVal.str "get")])] ∧
    (make_request (api_dict [("common", PyVal.dict []),
        ("sms", PyVal.dict [("url", PyVal.str "/s"), ("method", PyVal.str "get")])])
      [] "" (fun _ => "") 0 "common" []).1 ≠ Except.error PyErr.apiError := by
  have h := claim_C10_common_in_catalog [("common", PyVal.dict []),
    ("sms", PyVal.dict [("url", PyVal.str "/s"), ("method", PyVal.str "get")])]
    (by simp)
  exact ⟨h.2.1, h.2.2 [] "" (fun _ => "") 0 []⟩

end Huawei
